import Mathlib

/-!
Verification development for the DockerGen repository (src/app.js, src/main.js).

Strings of the JavaScript source are modelled as `List Char`.  JavaScript
`String.prototype.toLowerCase` is modelled per character by `Char.toLower`
(the ASCII mapping; no locale-dependent multi-character expansions).
Recursions that are not structural carry an explicit fuel argument equal to
the length of the scanned list, which is always sufficient because every
step consumes at least one character.
-/

namespace DockerGen

/-- Whitespace character set shared by the models of JavaScript
`String.prototype.trim` and the regex class `\s` (ECMA-262 uses the same
set for both). -/
def wsChars : List Char :=
  [' ', '\t', '\n', '\r', '\x0b', '\x0c', '\u00A0', '\u1680',
   '\u2000', '\u2001', '\u2002', '\u2003', '\u2004', '\u2005', '\u2006',
   '\u2007', '\u2008', '\u2009', '\u200A',
   '\u2028', '\u2029', '\u202F', '\u205F', '\u3000', '\uFEFF']

/-- Model of the JavaScript whitespace test used by `trim` and `\s`. -/
def isJsWs (c : Char) : Bool := wsChars.contains c

/-- Model of JavaScript `s.trim()`. -/
def jsTrim (s : List Char) : List Char :=
  ((s.dropWhile isJsWs).reverse.dropWhile isJsWs).reverse

/-- Model of JavaScript `s.toLowerCase()` (per-character ASCII mapping). -/
def jsToLower (s : List Char) : List Char := s.map Char.toLower

/-- Model of JavaScript `hay.indexOf(pat)`: index of the first occurrence of
`pat` in `hay`, `none` standing for the JavaScript result `-1`. -/
def jsIndexOf (pat : List Char) : List Char → Option Nat
  | [] => if pat.isPrefixOf ([] : List Char) then some 0 else none
  | c :: rest =>
    if pat.isPrefixOf (c :: rest) then some 0
    else (jsIndexOf pat rest).map (· + 1)

/-- Model of JavaScript `s.lastIndexOf(ch)` for a single character. -/
def jsLastIndexOfChar (ch : Char) (s : List Char) : Option Nat :=
  (jsIndexOf [ch] s.reverse).map (fun i => s.length - 1 - i)

/-- Model of JavaScript `s.split(sep)` for a single-character separator:
keeps empty segments, and splitting the empty string yields `[[]]`. -/
def jsSplitOn (sep : Char) : List Char → List (List Char)
  | [] => [[]]
  | c :: rest =>
    match jsSplitOn sep rest with
    | [] => [[]]
    | seg :: segs => if c = sep then [] :: seg :: segs else (c :: seg) :: segs

/-- Model of JavaScript `s.replace(pat, repl)` with a plain-string pattern:
only the first occurrence is replaced. -/
def jsReplaceFirst (pat repl s : List Char) : List Char :=
  match jsIndexOf pat s with
  | some i => s.take i ++ repl ++ s.drop (i + pat.length)
  | none => s

/-- Three backticks, the markdown fence marker. -/
def backticks : List Char := ['`', '`', '`']

/-- Length of the match of the regex `/(three backticks)WORD\s*|\s*(three
backticks)/` at the start of `s` (`none` when neither alternative matches
there).  The first alternative is preferred, as in JavaScript alternation;
the trailing and leading `\s*` are greedy.  In the second alternative the
greedy `\s*` must stop exactly at the maximal leading whitespace run,
because a backtick is not whitespace. -/
def fenceMatchLen (word s : List Char) : Option Nat :=
  if (backticks ++ word).isPrefixOf s then
    some (3 + word.length + ((s.drop (3 + word.length)).takeWhile isJsWs).length)
  else
    let w := (s.takeWhile isJsWs).length
    if backticks.isPrefixOf (s.drop w) then some (w + 3) else none

/-- Fuelled scanner for the global regex replacement
`s.replace(/(fence)WORD\s*|\s*(fence)/g, '')`: scan left to right, delete
each leftmost match, continue after it.  Every match has length at least 3,
so in the match branch dropping `n - 1` from `rest` is dropping `n` from
`c :: rest`; fuel equal to the list length is always sufficient because
every step consumes at least one character. -/
def fenceReplaceGo (word : List Char) : Nat → List Char → List Char
  | 0, s => s
  | _ + 1, [] => []
  | fuel + 1, c :: rest =>
    match fenceMatchLen word (c :: rest) with
    | some n => fenceReplaceGo word fuel (rest.drop (n - 1))
    | none => c :: fenceReplaceGo word fuel rest

/-- Model of the global fence-stripping replacement used by both sanitizers. -/
def fenceReplace (word s : List Char) : List Char :=
  fenceReplaceGo word s.length s

/-- The word of the JSON fence regex `/(fence)json\s*|\s*(fence)/g`
(src/app.js line 202). -/
def jsonWord : List Char := ['j', 's', 'o', 'n']

/-- The word of the Dockerfile fence regex (src/app.js line 219, the
instruction-sensitive variant, lowercase `dockerfile`). -/
def dockerfileWord : List Char :=
  ['d', 'o', 'c', 'k', 'e', 'r', 'f', 'i', 'l', 'e']

/-- Opening brace character. -/
def openBrace : Char := '\x7b'

/-- Closing brace character. -/
def closeBrace : Char := '\x7d'

/-- Double-quote character. -/
def dquote : Char := '"'

/-- Single-quote character. -/
def squote : Char := '\x27'

/-- Model of the quote-stripping step of `cleanDockerfileContent`
(src/app.js lines 220-223): remove one matching pair of leading/trailing
quote characters when both ends carry the same quote. -/
def quoteStrip (c : List Char) : List Char :=
  if (c.head? = some dquote ∧ c.getLast? = some dquote) ∨
     (c.head? = some squote ∧ c.getLast? = some squote)
  then (c.drop 1).dropLast else c

/-- Brace-slicing step of `cleanJSONResponse` (src/app.js lines 203-208):
slice from the first opening brace to the last closing brace inclusive when
both exist in that order, otherwise return the input unchanged. -/
def braceSlice (cleaned : List Char) : List Char :=
  match jsIndexOf [openBrace] cleaned, jsLastIndexOfChar closeBrace cleaned with
  | some si, some ei =>
    if si < ei then (cleaned.drop si).take (ei + 1 - si) else cleaned
  | some _, none => cleaned
  | none, _ => cleaned

/-- Model of `cleanJSONResponse` (src/app.js lines 201-211): strip the JSON
fence markers, then brace-slice. -/
def cleanJSONResponse (response : List Char) : List Char :=
  braceSlice (fenceReplace jsonWord response)

/-- Consumes the body of a JSON string literal after the opening quote,
returning the remainder after the closing quote; escapes and control
characters are not accepted (not needed by the inputs this recognizer is
applied to). -/
def jsonStringBody : List Char → Option (List Char)
  | [] => none
  | c :: rest =>
    if c = dquote then some rest
    else if c = '\\' then none
    else jsonStringBody rest

/-- Consumes one JSON value (string or nonnegative integer literal),
returning the remainder. -/
def jsonValueAfter : List Char → Option (List Char)
  | [] => none
  | c :: rest =>
    if c = dquote then jsonStringBody rest
    else if c.isDigit then some (rest.dropWhile Char.isDigit)
    else none

/-- Member list of a flat JSON object after the opening brace: one or more
`"key": value` pairs separated by commas, closed by the final brace at the
very end of the input.  The fuel argument bounds the recursion and is
instantiated with the input length, which suffices because each pair
consumes at least one character. -/
def jsonMembers : Nat → List Char → Bool
  | 0, _ => false
  | fuel + 1, s =>
    match s with
    | [] => false
    | c :: rest =>
      if c = dquote then
        match jsonStringBody rest with
        | some (k :: rest2) =>
          if k = ':' then
            match jsonValueAfter rest2 with
            | some (d :: rest3) =>
              if d = ',' then jsonMembers fuel rest3
              else if d = closeBrace then rest3.isEmpty else false
            | some [] => false
            | none => false
          else false
        | some [] => false
        | none => false
      else false

/-- Modelled from the spec for claim C3's guard (a well-formed outer JSON
object): recognizer for a restricted subclass of well-formed JSON objects
(flat, no whitespace padding, string keys, string or integer values, no
escape sequences); acceptance implies the whole input is one well-formed
outer JSON object. -/
def jsonObjectLike (s : List Char) : Bool :=
  match s with
  | [] => false
  | c :: rest => if c = openBrace then jsonMembers s.length rest else false

/-- The token searched for by `cleanDockerfileContent`. -/
def fromTok : List Char := ['f', 'r', 'o', 'm']

/-- Model of `cleanDockerfileContent` (src/app.js lines 213-225, the
instruction-sensitive variant): trim, truncate everything before the first
case-insensitive occurrence of `from` when that occurrence is at a positive
index, strip the Dockerfile fence markers, then strip one matching pair of
quotes. -/
def cleanDockerfileContent (content : List Char) : List Char :=
  let c := jsTrim content
  let c2 :=
    match jsIndexOf fromTok (jsToLower c) with
    | some i => if 0 < i then c.drop i else c
    | none => c
  quoteStrip (fenceReplace dockerfileWord c2)

/-- Whether the input contains the token `from` in any letter case. -/
def containsFromTok (content : List Char) : Bool :=
  (jsIndexOf fromTok (jsToLower content)).isSome

/-- Modelled from the spec's words for claim C1: fence markers stripped
first, then trimmed, then one matching pair of quotes removed.  Compared
against `cleanDockerfileContent`, which trims before stripping fences. -/
def cleanDockerfileSpecOrder (content : List Char) : List Char :=
  quoteStrip (jsTrim (fenceReplace dockerfileWord content))

/-- Model of the loop body of `callGPTAPIWithRetry` (src/app.js lines
182-199).  `endpoint i` is the outcome of the `i`-th POST to the completion
endpoint: `.ok s` carries `choices[0].message.content`, `.error e` stands
for any thrown failure (network error, non-2xx status, malformed body).
`r` is the number of remaining iterations, so the current index is
`n - r`.  The result pairs the returned value (`none` models the loop
falling through, i.e. the JavaScript `undefined` return) with the number of
endpoint invocations performed. -/
def retryGo {ε : Type} (endpoint : Nat → Except ε (List Char)) (n : Nat) :
    Nat → Option (Except ε (List Char)) × Nat
  | 0 => (none, 0)
  | r + 1 =>
    let i := n - (r + 1)
    match endpoint i with
    | .ok s => (some (.ok (jsTrim s)), 1)
    | .error e =>
      if i = n - 1 then (some (.error e), 1)
      else
        let t := retryGo endpoint n r
        (t.1, t.2 + 1)

/-- Model of `callGPTAPIWithRetry` (src/app.js lines 182-199): `for (let i =
0; i < maxRetries; i++)` runs `max(maxRetries, 0)` iterations; on success
the trimmed first-choice content is returned, on the last failing iteration
the error is rethrown, otherwise the loop sleeps `retryDelay` and retries. -/
def callGPTAPIWithRetry {ε : Type} (maxRetries : Int)
    (endpoint : Nat → Except ε (List Char)) :
    Option (Except ε (List Char)) × Nat :=
  retryGo endpoint maxRetries.toNat maxRetries.toNat

/-- Model of the response parsing in `identifyKeyFilesWithGPT` (src/app.js
line 127): `response.split(',').map(file => file.trim())`. -/
def parseKeyFilesResponse (response : List Char) : List (List Char) :=
  (jsSplitOn ',' response).map jsTrim

/-- Model of the Dockerfile write in `generateDockerfileForRepo`
(src/app.js lines 43-50) as a state transformer on the content of
`<repoPath>/Dockerfile`: when the sanitized content is truthy (a non-empty
string) it is written verbatim, overwriting whatever was there; otherwise
nothing is written and an error is logged. -/
def writeDockerfileStage (existing : Option (List Char)) (content : List Char) :
    Option (List Char) :=
  if content.isEmpty then existing else some content

/-- The pattern removed from repository names. -/
def gitPat : List Char := ['.', 'g', 'i', 't']

/-- Model of the name derivation in `cloneRepository` (src/app.js line 263):
`repoUrl.split('/').pop().replace('.git', '')`.  `pop` is total here
because `split` always returns at least one segment. -/
def deriveRepoName (repoUrl : List Char) : List Char :=
  jsReplaceFirst gitPat [] ((jsSplitOn '/' repoUrl).getLastD [])

/-- Modelled from the spec's words for claim C5: the last slash-separated
segment, computed independently of `jsSplitOn`. -/
def specLastSegment (u : List Char) : List Char :=
  (u.reverse.takeWhile (fun c => c ≠ '/')).reverse

/-- Modelled from the claim's words for C5: the last segment with the
`.git` suffix stripped when present, otherwise the segment itself. -/
def claimDeriveRepoName (u : List Char) : List Char :=
  let seg := specLastSegment u
  if gitPat.isSuffixOf seg then seg.take (seg.length - 4) else seg

/-- Result of the WHATWG `new URL(repoUrl)` constructor, abstracted to the
only component `parseRepoUrl` reads; the constructor throwing is modelled
by `none` at the call site. -/
structure JsUrl where
  pathname : List Char

/-- Modelled from the claim's words for C9: the non-empty slash-separated
path segments, via the library splitter (independent of `jsSplitOn`). -/
def specSegs (pathname : List Char) : List (List Char) :=
  (pathname.splitOn '/').filter (fun seg => !seg.isEmpty)

/-- Error message thrown by `parseRepoUrl` for every failure. -/
def invalidRepoUrlMsg : List Char := "Invalid GitHub repository URL".toList

/-- Model of `parseRepoUrl` (src/main.js lines 47-61): split the parsed
pathname on slashes, keep the truthy (non-empty) segments, demand at least
two of them (matching the source's `pathParts.length < 2` check), and
return the first as owner and the second with the first `.git` occurrence
removed as repo; every failure, including a throwing URL constructor, is
an `Invalid GitHub repository URL` error because the surrounding catch
rethrows with that fixed message. -/
def parseRepoUrl (parsed : Option JsUrl) : Except (List Char) (List Char × List Char) :=
  match parsed with
  | none => .error invalidRepoUrlMsg
  | some u =>
    match (jsSplitOn '/' u.pathname).filter (fun seg => !seg.isEmpty) with
    | p0 :: p1 :: _ => .ok (p0, jsReplaceFirst gitPat [] p1)
    | _ => .error invalidRepoUrlMsg

/-- Fixed prompt text of `generateDockerfileWithGPT` (src/app.js lines
438-478) up to the first interpolation. -/
def promptSeg1 : List Char :=
  "\nGenerate a Dockerfile for the following project, suitable for a production environment.\n\n".toList

/-- Multi-stage branch of the first interpolation (src/app.js line 442). -/
def multiStageIntro : List Char :=
  "Use a multi-stage build to optimize the image size. Include at least two stages: a build stage and a final stage.".toList

/-- Single-stage branch of the first interpolation (src/app.js line 443). -/
def singleStageIntro : List Char :=
  "Use a single-stage build only. Do NOT include any multi-stage build syntax or multiple FROM instructions.".toList

/-- Prompt text between the build-type intro and the project information. -/
def promptSeg2 : List Char :=
  "\n\nGuidelines:\n1. Choose appropriate base image(s), preferring official lightweight images.\n2. Set the working directory, copy necessary files, and install dependencies.\n3. Run the application as a non-root user if possible.\n4. Set necessary environment variables.\n5. Only expose ports if required (e.g., for web services or APIs).\n6. Use ENTRYPOINT and/or CMD to start the application.\n7. Add a health check if appropriate for the application type.\n8. Optimize Docker image size and build performance.\n9. Follow Docker security best practices.\n10. Consider CI/CD processes in your Dockerfile design.\n11. Tailor the Dockerfile to the specific project type and its requirements.\n12. Apply language-specific best practices based on the detected programming language(s).\n\nProject information:\n".toList

/-- Prompt text between the project information and the template block. -/
def promptSeg3 : List Char := "\n\n".toList

/-- Header of the optional custom-template block (src/app.js line 462). -/
def templateIntro : List Char :=
  "Base your Dockerfile on this template, adapting as needed:\n".toList

/-- Prompt text from the template block to strict instruction 3. -/
def promptSeg4 : List Char :=
  "\n\nStrict instructions:\n1. Output ONLY the Dockerfile content without any explanations or comments.\n2. Ensure the Dockerfile is specific to this project\x27s needs.\n3. ".toList

/-- Multi-stage branch of strict instruction 3 (src/app.js line 468): the
directive mandating the two named stages `builder` and `final`. -/
def multiStageRule : List Char :=
  "Use at least two stages: \"builder\" and \"final\". Add additional stages if beneficial.".toList

/-- Single-stage branch of strict instruction 3 (src/app.js line 469): the
prohibition of stage naming and of multiple FROM instructions. -/
def singleStageRule : List Char :=
  "Use ONLY ONE stage. Do NOT use any \"FROM ... AS ...\" syntax or multiple FROM instructions.".toList

/-- Prompt text between strict instructions 3 and 7. -/
def promptSeg5 : List Char :=
  "\n4. Keep the Dockerfile concise and efficient.\n5. If the project does not require exposed ports, do not include EXPOSE instruction.\n6. Only include necessary ENV instructions based on the project information.\n7. ".toList

/-- Single-stage branch of strict instruction 7 (src/app.js line 474). -/
def singleStageStructure : List Char :=
  "For single-stage build, follow this structure: FROM, WORKDIR, COPY, RUN (for installations and configurations), EXPOSE (if needed), CMD/ENTRYPOINT.".toList

/-- Closing prompt text. -/
def promptSeg6 : List Char := "\n\nBegin Dockerfile content:\n".toList

/-- Model of the prompt template of `generateDockerfileWithGPT` (src/app.js
lines 438-478).  `projectInfoJson` stands for `JSON.stringify(projectInfo,
null, 2)` and `customTemplate` for the optional template text. -/
def generateDockerfilePrompt (projectInfoJson : List Char) (useMultiStage : Bool)
    (customTemplate : Option (List Char)) : List Char :=
  promptSeg1 ++
  (if useMultiStage then multiStageIntro else singleStageIntro) ++
  promptSeg2 ++ projectInfoJson ++ promptSeg3 ++
  (match customTemplate with
   | some t => templateIntro ++ t
   | none => []) ++
  promptSeg4 ++
  (if useMultiStage then multiStageRule else singleStageRule) ++
  promptSeg5 ++
  (if useMultiStage then [] else singleStageStructure) ++
  promptSeg6

/-- File-system tree for the model of `generateDirectoryStructure`: a
directory entry carries its name and its children in enumeration order. -/
inductive Fs where
  | file (name : List Char)
  | dir (name : List Char) (children : List Fs)

/-- The fixed ignore set of `generateDirectoryStructure` (src/app.js line
228). -/
def ignoreDirs : List (List Char) :=
  [".git".toList, "node_modules".toList, "venv".toList, ".venv".toList]

/-- Connector drawn before an entry name (src/app.js line 239). -/
def connector (isLast : Bool) : List Char :=
  if isLast then "└── ".toList else "├── ".toList

/-- Extension appended to the prefix for a child directory (src/app.js line
242). -/
def childExt (isLast : Bool) : List Char :=
  if isLast then "    ".toList else "│   ".toList

/-- Model of the `traverse` closure of `generateDirectoryStructure`
(src/app.js lines 231-245), returning the emitted lines in order.  The
source checks `depth > 5` on entry of each recursive call made with
`depth + 1`, which is equivalent to guarding the child call as done here
(the root call at depth 0 always passes the check).  `isLast` compares the
entry index with the length of the unfiltered listing, exactly as the
source does before the ignore check. -/
def travAll : List Fs → List Char → Nat → List (List Char)
  | [], _, _ => []
  | e :: rest, pfx, d =>
    (match e with
     | .file n =>
       if ignoreDirs.contains n then []
       else [pfx ++ connector rest.isEmpty ++ n]
     | .dir n children =>
       if ignoreDirs.contains n then []
       else
         (pfx ++ connector rest.isEmpty ++ n) ::
           (if 5 < d + 1 then []
            else travAll children (pfx ++ childExt rest.isEmpty) (d + 1))) ++
    travAll rest pfx d
termination_by fs _ _ => sizeOf fs

/-- Model of `generateDirectoryStructure` (src/app.js lines 227-249): the
root's children are listed with the empty prefix at depth 0. -/
def generateDirectoryStructure (rootChildren : List Fs) : List (List Char) :=
  travAll rootChildren [] 0

mutual

/-- Replaces the children of every directory whose name is in the ignore
set with the empty list, leaving everything else intact; used to state that
the contents of ignored directories never influence the output. -/
def gutIgnored : Fs → Fs
  | .file n => .file n
  | .dir n children =>
    .dir n (if ignoreDirs.contains n then [] else gutList children)

/-- Maps `gutIgnored` over a listing. -/
def gutList : List Fs → List Fs
  | [] => []
  | e :: rest => gutIgnored e :: gutList rest

end

/-! ### Helper lemmas -/

theorem jsSplitOn_ne_nil (sep : Char) (s : List Char) : jsSplitOn sep s ≠ [] := by
  cases s with
  | nil => simp [jsSplitOn]
  | cons c rest =>
    simp only [jsSplitOn]
    cases h : jsSplitOn sep rest with
    | nil => simp
    | cons seg segs => by_cases hc : c = sep <;> simp [hc]

theorem jsSplitOn_eq_splitOn (sep : Char) (s : List Char) :
    jsSplitOn sep s = s.splitOn sep := by
  induction s with
  | nil => rfl
  | cons c rest ih =>
    cases h : jsSplitOn sep rest with
    | nil => exact absurd h (jsSplitOn_ne_nil sep rest)
    | cons seg segs =>
      simp only [jsSplitOn, h, List.splitOn] at ih ⊢
      rw [List.splitOnP_cons, ← ih]
      by_cases hc : c = sep
      · simp [hc]
      · simp [hc]

theorem jsSplitOn_length (sep : Char) (s : List Char) :
    (jsSplitOn sep s).length = s.count sep + 1 := by
  induction s with
  | nil => simp [jsSplitOn]
  | cons c rest ih =>
    cases h : jsSplitOn sep rest with
    | nil => exact absurd h (jsSplitOn_ne_nil sep rest)
    | cons seg segs =>
      rw [h] at ih
      simp only [jsSplitOn, h, List.count_cons]
      by_cases hc : c = sep
      · simp only [if_pos hc, List.length_cons] at ih ⊢
        simp [hc, ih]
      · simp only [if_neg hc, List.length_cons] at ih ⊢
        have : (c == sep) = false := by simp [hc]
        simp [this, ih]

theorem retryGo_success {ε : Type} (endpoint : Nat → Except ε (List Char)) :
    ∀ m r n s, r ≤ n → m < r →
      (∀ j, j < m → ∃ e, endpoint (n - r + j) = Except.error e) →
      endpoint (n - r + m) = Except.ok s →
      retryGo endpoint n r = (some (Except.ok (jsTrim s)), m + 1) := by
  intro m
  induction m with
  | zero =>
    intro r n s hrn hm hfail hok
    obtain ⟨r', rfl⟩ : ∃ r', r = r' + 1 := ⟨r - 1, by omega⟩
    rw [show n - (r' + 1) + 0 = n - (r' + 1) by omega] at hok
    simp only [retryGo, hok]
  | succ m ih =>
    intro r n s hrn hm hfail hok
    obtain ⟨r', rfl⟩ : ∃ r', r = r' + 1 := ⟨r - 1, by omega⟩
    obtain ⟨e0, he0⟩ := hfail 0 (by omega)
    rw [show n - (r' + 1) + 0 = n - (r' + 1) by omega] at he0
    have hne : ¬ (n - (r' + 1) = n - 1) := by omega
    have hrec := ih r' n s (by omega) (by omega)
      (fun j hj => by
        have h2 := hfail (j + 1) (by omega)
        rwa [show n - (r' + 1) + (j + 1) = n - r' + j by omega] at h2)
      (by rwa [show n - (r' + 1) + (m + 1) = n - r' + m by omega] at hok)
    simp only [retryGo, he0, if_neg hne, hrec]

theorem retryGo_failure {ε : Type} (endpoint : Nat → Except ε (List Char)) :
    ∀ r n e, 1 ≤ r → r ≤ n →
      (∀ j, j < r → ∃ e0, endpoint (n - r + j) = Except.error e0) →
      endpoint (n - 1) = Except.error e →
      retryGo endpoint n r = (some (Except.error e), r) := by
  intro r
  induction r with
  | zero => intro n e h1; omega
  | succ r' ih =>
    intro n e _ hrn hfail hlast
    by_cases hr : r' = 0
    · subst hr
      have : n - (0 + 1) = n - 1 := by omega
      simp [retryGo, this, hlast]
    · obtain ⟨e0, he0⟩ := hfail 0 (by omega)
      rw [show n - (r' + 1) + 0 = n - (r' + 1) by omega] at he0
      have hne : ¬ (n - (r' + 1) = n - 1) := by omega
      have hrec := ih n e (by omega) (by omega)
        (fun j hj => by
          have h2 := hfail (j + 1) (by omega)
          rwa [show n - (r' + 1) + (j + 1) = n - r' + j by omega] at h2)
        hlast
      simp only [retryGo, he0, if_neg hne, hrec]

/-! ### Claim C10 -/

/-- Claim C10: if the configured maxRetries value is zero or negative, then
for every prompt, `callGPTAPIWithRetry` performs no endpoint invocation,
raises no error, and returns no content (an undefined result): the `for`
loop body never runs, so the call count is 0 and the returned value is the
JavaScript `undefined`, modelled by `none`. -/
theorem claim10_no_invocation {ε : Type} (maxRetries : Int)
    (endpoint : Nat → Except ε (List Char)) (h : maxRetries ≤ 0) :
    callGPTAPIWithRetry maxRetries endpoint = (none, 0) := by
  unfold callGPTAPIWithRetry
  rw [Int.toNat_of_nonpos h]
  rfl

/-- Witness for C10 at maxRetries = -2 and a constantly succeeding endpoint. -/
theorem claim10_witness :
    callGPTAPIWithRetry (-2) (fun _ => (Except.ok [] : Except Unit (List Char)))
      = (none, 0) :=
  claim10_no_invocation (-2) (fun _ => (Except.ok [] : Except Unit (List Char)))
    (by decide)

/-! ### Claim C2 -/

/-- Claim C2: for every `k` with `0 ≤ k < maxRetries`, if the completion
endpoint fails the first `k` calls and succeeds on the next, the call
succeeds returning the trimmed message content of the first choice and the
endpoint is invoked exactly `k + 1` times; if the endpoint fails on
`maxRetries` consecutive calls (`maxRetries ≥ 1`), the failure of the last
attempt is propagated and the endpoint is invoked exactly `maxRetries`
times. -/
theorem claim2_retry_contract {ε : Type} (maxRetries : Int)
    (endpoint : Nat → Except ε (List Char)) :
    (∀ (k : Nat) (s : List Char), (k : Int) < maxRetries →
      (∀ j, j < k → ∃ e, endpoint j = Except.error e) →
      endpoint k = Except.ok s →
      callGPTAPIWithRetry maxRetries endpoint
        = (some (Except.ok (jsTrim s)), k + 1)) ∧
    (1 ≤ maxRetries →
      (∀ j, j < maxRetries.toNat → ∃ e, endpoint j = Except.error e) →
      ∀ e, endpoint (maxRetries.toNat - 1) = Except.error e →
      callGPTAPIWithRetry maxRetries endpoint
        = (some (Except.error e), maxRetries.toNat)) := by
  constructor
  · intro k s hk hfail hok
    have hk' : k < maxRetries.toNat := by omega
    unfold callGPTAPIWithRetry
    exact retryGo_success endpoint k maxRetries.toNat maxRetries.toNat s le_rfl hk'
      (fun j hj => by simpa using hfail j hj) (by simpa using hok)
  · intro h1 hfail e hlast
    unfold callGPTAPIWithRetry
    exact retryGo_failure endpoint maxRetries.toNat maxRetries.toNat e (by omega) le_rfl
      (fun j hj => by simpa using hfail j hj) hlast

/-- Witness for C2: with maxRetries = 3, an endpoint failing on calls 0 and
1 and succeeding on call 2, the call returns the trimmed content after
exactly 3 invocations; the all-failing endpoint propagates the last error
after exactly 3 invocations. -/
theorem claim2_witness :
    callGPTAPIWithRetry 3
        (fun i => if i < 2 then (Except.error i : Except Nat (List Char))
                  else Except.ok (' ' :: 'o' :: 'k' :: [' ']))
      = (some (Except.ok ['o', 'k']), 3) ∧
    callGPTAPIWithRetry 3
        (fun i => (Except.error i : Except Nat (List Char)))
      = (some (Except.error 2), 3) := by
  constructor
  · exact (claim2_retry_contract 3 _).1 2 (' ' :: 'o' :: 'k' :: [' '])
      (by decide)
      (fun j hj => ⟨j, by have : j < 2 := hj; simp [this]⟩)
      (by norm_num)
  · exact (claim2_retry_contract 3 _).2 (by decide)
      (fun j _ => ⟨j, rfl⟩) 2 rfl

/-! ### Claim C6 -/

/-- Counterexample for claim C6: a completion response with ten commas
yields eleven entries, so the key-file list is not capped at 10 entries (the
10-file limit is only requested in the prompt, never enforced by the
parser). -/
theorem claim6_counterexample :
    10 < (parseKeyFilesResponse ("a,b,c,d,e,f,g,h,i,j,k".toList)).length := by
  decide

/-- Claim C6 as amended: the key-file list has exactly one entry per
comma-delimited segment of the response (number of commas plus one, with no
cap), each entry being the segment with surrounding whitespace trimmed. -/
theorem claim6_amended (response : List Char) :
    parseKeyFilesResponse response = (jsSplitOn ',' response).map jsTrim ∧
    (parseKeyFilesResponse response).length = response.count ',' + 1 := by
  refine ⟨rfl, ?_⟩
  unfold parseKeyFilesResponse
  rw [List.length_map]
  exact jsSplitOn_length ',' response

/-! ### Claim C7 -/

/-- Counterexample for claim C7: when the sanitized generation result is
the empty string, `generateDockerfileForRepo` does not write it: the
JavaScript truthiness check `if (dockerfileContent)` fails on the empty
string, the existing Dockerfile is left intact and an error is logged
instead. -/
theorem claim7_counterexample :
    writeDockerfileStage (some ("old".toList)) [] = some ("old".toList) ∧
    ((writeDockerfileStage (some ("old".toList)) [] == (some ([] : List Char))) = false) := by
  decide

/-- Claim C7 as amended: for every run reaching the generation stage whose
sanitized result is non-empty, the result is written verbatim to
`<repoPath>/Dockerfile`, overwriting any existing content without diffing
or backup; the empty string is the single exception and is not written. -/
theorem claim7_amended (existing : Option (List Char)) (content : List Char)
    (h : content.isEmpty = false) :
    writeDockerfileStage existing content = some content := by
  unfold writeDockerfileStage
  rw [h]
  rfl

/-- Witness for C7 at a non-empty sanitized result overwriting an existing
file. -/
theorem claim7_witness :
    ("new".toList).isEmpty = false ∧
    writeDockerfileStage (some ("old".toList)) ("new".toList) = some ("new".toList) :=
  ⟨by decide, claim7_amended (some ("old".toList)) ("new".toList) (by decide)⟩

/-! ### Claim C5 -/

theorem takeWhile_append_stop {α : Type} {p : α → Bool} (x : α) (hx : p x = false) :
    ∀ (a b : List α), (a ++ x :: b).takeWhile p = a.takeWhile p := by
  intro a b
  induction a with
  | nil => simp [List.takeWhile_cons, hx]
  | cons c a' ih =>
    by_cases hc : p c
    · simp [List.takeWhile_cons, hc, ih]
    · simp only [Bool.not_eq_true] at hc
      simp [List.takeWhile_cons, hc]

theorem takeWhile_append_of_inner_stop {α : Type} {p : α → Bool} {a : List α}
    (ha : ∃ x ∈ a, p x = false) (b : List α) :
    (a ++ b).takeWhile p = a.takeWhile p := by
  rw [List.takeWhile_append, if_neg]
  intro hlen
  have hself : a.takeWhile p = a := (List.takeWhile_prefix p).eq_of_length hlen
  obtain ⟨x, hx, hpx⟩ := ha
  have := List.takeWhile_eq_self_iff.mp hself x hx
  simp [hpx] at this

theorem specLastSegment_of_not_mem {u : List Char} (h : '/' ∉ u) :
    specLastSegment u = u := by
  unfold specLastSegment
  rw [List.takeWhile_eq_self_iff.mpr, List.reverse_reverse]
  intro x hx
  simp only [List.mem_reverse] at hx
  simp only [decide_eq_true_eq]
  exact fun hxx => h (hxx ▸ hx)

theorem jsSplitOn_last_charac (u : List Char) :
    (jsSplitOn '/' u).getLastD [] = specLastSegment u ∧
    ('/' ∈ u → 2 ≤ (jsSplitOn '/' u).length) ∧
    ('/' ∉ u → jsSplitOn '/' u = [u]) := by
  induction u with
  | nil => refine ⟨rfl, by simp, fun _ => rfl⟩
  | cons c rest ih =>
    obtain ⟨hlast, hmem, hnomem⟩ := ih
    cases h : jsSplitOn '/' rest with
    | nil => exact absurd h (jsSplitOn_ne_nil '/' rest)
    | cons seg segs =>
      rw [h] at hlast hmem hnomem
      by_cases hc : c = '/'
      · subst hc
        refine ⟨?_, ?_, ?_⟩
        · have hsplit : jsSplitOn '/' ('/' :: rest) = [] :: seg :: segs := by
            simp [jsSplitOn, h]
          rw [hsplit, List.getLastD_cons, hlast]
          unfold specLastSegment
          rw [List.reverse_cons, takeWhile_append_stop '/' (by simp) rest.reverse []]
        · intro _; simp [jsSplitOn, h]
        · intro hn; exact absurd (List.mem_cons_self _ _) hn
      · cases segs with
        | nil =>
          have hrest : '/' ∉ rest := by
            intro hin
            have := hmem hin
            simp at this
          have hseg : seg = rest := by
            have := hnomem hrest
            simpa using this
          have hnotin : '/' ∉ c :: rest := by
            intro hin
            rcases List.mem_cons.mp hin with h1 | h1
            · exact hc h1.symm
            · exact hrest h1
          refine ⟨?_, ?_, ?_⟩
          · simp only [jsSplitOn, h, if_neg hc]
            rw [specLastSegment_of_not_mem hnotin, hseg]
            rfl
          · intro hin
            rcases List.mem_cons.mp hin with h1 | h1
            · exact absurd h1.symm hc
            · exact absurd h1 hrest
          · intro _; simp [jsSplitOn, h, if_neg hc, hseg]
        | cons s2 rest2 =>
          have hrest : '/' ∈ rest := by
            by_contra hno
            have := hnomem hno
            simp at this
          refine ⟨?_, ?_, ?_⟩
          · simp only [jsSplitOn, h, if_neg hc]
            have e1 : ((c :: seg) :: s2 :: rest2).getLastD ([] : List Char)
                = (seg :: s2 :: rest2).getLastD [] := by
              simp [List.getLastD_cons, List.getLastD_eq_getLast?]
            rw [e1, hlast]
            unfold specLastSegment
            rw [List.reverse_cons,
              takeWhile_append_of_inner_stop
                ⟨'/', by simp [hrest], by simp⟩ [c]]
          · intro _; simp [jsSplitOn, h, if_neg hc]
          · intro hn
            exact absurd (List.mem_cons_of_mem c hrest) hn

theorem lastSegment_eq (u : List Char) :
    (jsSplitOn '/' u).getLastD [] = specLastSegment u :=
  (jsSplitOn_last_charac u).1

/-- Counterexample for claim C5: JavaScript's `replace('.git', '')` removes
the first occurrence of `.git`, not a suffix, so for the URL
`https://example.com/owner/my.git.repo`, whose last segment carries no
`.git` suffix, the derived name is `my.repo` and not the segment itself as
the claim states. -/
theorem claim5_counterexample :
    deriveRepoName ("https://example.com/owner/my.git.repo".toList) = "my.repo".toList ∧
    claimDeriveRepoName ("https://example.com/owner/my.git.repo".toList)
      = "my.git.repo".toList ∧
    ((deriveRepoName ("https://example.com/owner/my.git.repo".toList)
        == claimDeriveRepoName ("https://example.com/owner/my.git.repo".toList))
      = false) := by
  decide

/-- Claim C5 as amended: the derived local directory name equals the last
slash-separated segment of the URL with the first occurrence of the
substring `.git` removed; when the segment contains no `.git` occurrence
the name equals the segment itself, and in particular both quoted examples
hold. -/
theorem claim5_amended :
    (∀ u, deriveRepoName u = jsReplaceFirst gitPat [] (specLastSegment u)) ∧
    (∀ u, jsIndexOf gitPat (specLastSegment u) = none →
      deriveRepoName u = specLastSegment u) ∧
    deriveRepoName ("https://example.com/owner/repo.git".toList) = "repo".toList ∧
    deriveRepoName (".../repo".toList) = "repo".toList := by
  refine ⟨?_, ?_, by decide, by decide⟩
  · intro u
    unfold deriveRepoName
    rw [lastSegment_eq]
  · intro u hnone
    unfold deriveRepoName
    rw [lastSegment_eq]
    unfold jsReplaceFirst
    rw [hnone]

/-- Witness for C5 at a URL whose last segment has no `.git` occurrence. -/
theorem claim5_witness :
    jsIndexOf gitPat (specLastSegment ("https://example.com/owner/repo".toList)) = none ∧
    deriveRepoName ("https://example.com/owner/repo".toList)
      = specLastSegment ("https://example.com/owner/repo".toList) :=
  ⟨by decide, claim5_amended.2.1 ("https://example.com/owner/repo".toList) (by decide)⟩

/-! ### Claim C9 -/

/-- Claim C9: `parseRepoUrl` either returns the first non-empty path
segment as owner and the second non-empty segment with the first occurrence
of `.git` removed as repo, when the input parses as a URL with at least two
non-empty path segments, or throws `Invalid GitHub repository URL` for
every other input (unparsable input or fewer than two non-empty segments);
it never returns a value derived from fewer than two segments. -/
theorem claim9_parse_repo_url :
    parseRepoUrl none = Except.error invalidRepoUrlMsg ∧
    (∀ (u : JsUrl) (o r : List Char) (rest : List (List Char)),
      specSegs u.pathname = o :: r :: rest →
      parseRepoUrl (some u) = Except.ok (o, jsReplaceFirst gitPat [] r)) ∧
    (∀ u : JsUrl, (specSegs u.pathname).length < 2 →
      parseRepoUrl (some u) = Except.error invalidRepoUrlMsg) := by
  refine ⟨rfl, ?_, ?_⟩
  · intro u o r rest h
    have h2 : (jsSplitOn '/' u.pathname).filter (fun seg => !seg.isEmpty)
        = o :: r :: rest := by
      rw [jsSplitOn_eq_splitOn]; exact h
    simp only [parseRepoUrl, h2]
  · intro u h
    have h2 : (jsSplitOn '/' u.pathname).filter (fun seg => !seg.isEmpty)
        = specSegs u.pathname := by
      rw [jsSplitOn_eq_splitOn]; rfl
    simp only [parseRepoUrl, h2]
    rcases hs : specSegs u.pathname with _ | ⟨a, _ | ⟨b, t⟩⟩
    · rfl
    · rfl
    · exfalso
      rw [hs] at h
      simp at h
      omega

/-- Witness for C9 at a two-segment pathname and a one-segment pathname. -/
theorem claim9_witness :
    specSegs ("/owner/repo.git".toList) = ["owner".toList, "repo.git".toList] ∧
    parseRepoUrl (some ⟨"/owner/repo.git".toList⟩)
      = Except.ok ("owner".toList, "repo".toList) ∧
    (specSegs ("/x".toList)).length < 2 ∧
    parseRepoUrl (some ⟨"/x".toList⟩) = Except.error invalidRepoUrlMsg := by
  refine ⟨by decide, ?_, by decide, ?_⟩
  · rw [claim9_parse_repo_url.2.1 ⟨"/owner/repo.git".toList⟩ ("owner".toList)
      ("repo.git".toList) [] (by decide)]
    rfl
  · exact claim9_parse_repo_url.2.2 ⟨"/x".toList⟩ (by decide)

/-! ### Claim C4 -/

/-- Claim C4: for every invocation of the Dockerfile-generation prompt
builder, when useMultiStage is true the produced prompt contains the
directive mandating the two named stages `builder` and `final` (the
source's strict instruction 3, multi-stage branch), and when useMultiStage
is false the prompt contains the prohibition of any stage-naming
(`FROM ... AS ...`) syntax and of multiple FROM instructions. -/
theorem claim4_stage_directives (projectInfoJson : List Char)
    (customTemplate : Option (List Char)) :
    multiStageRule <:+: generateDockerfilePrompt projectInfoJson true customTemplate ∧
    singleStageRule <:+: generateDockerfilePrompt projectInfoJson false customTemplate := by
  constructor
  · refine ⟨promptSeg1 ++ multiStageIntro ++ promptSeg2 ++ projectInfoJson ++ promptSeg3 ++
      (match customTemplate with
       | some t => templateIntro ++ t
       | none => ([] : List Char)) ++ promptSeg4,
      promptSeg5 ++ promptSeg6, ?_⟩
    simp [generateDockerfilePrompt, List.append_assoc]
  · refine ⟨promptSeg1 ++ singleStageIntro ++ promptSeg2 ++ projectInfoJson ++ promptSeg3 ++
      (match customTemplate with
       | some t => templateIntro ++ t
       | none => ([] : List Char)) ++ promptSeg4,
      promptSeg5 ++ singleStageStructure ++ promptSeg6, ?_⟩
    simp [generateDockerfilePrompt, List.append_assoc]

/-! ### Claim C3 -/

theorem fenceReplaceGo_nil (word : List Char) :
    ∀ fuel, fenceReplaceGo word fuel [] = [] := by
  intro fuel
  cases fuel <;> rfl

theorem fenceReplaceGo_fuel (word : List Char) :
    ∀ fuel₁ fuel₂ s, s.length ≤ fuel₁ → s.length ≤ fuel₂ →
      fenceReplaceGo word fuel₁ s = fenceReplaceGo word fuel₂ s := by
  intro fuel₁
  induction fuel₁ with
  | zero =>
    intro fuel₂ s h1 _
    have hs : s = [] := List.length_eq_zero.mp (by omega)
    subst hs
    rw [fenceReplaceGo_nil, fenceReplaceGo_nil]
  | succ f ih =>
    intro fuel₂ s h1 h2
    cases s with
    | nil => rw [fenceReplaceGo_nil, fenceReplaceGo_nil]
    | cons c rest =>
      obtain ⟨f₂, rfl⟩ : ∃ f₂, fuel₂ = f₂ + 1 := by
        refine ⟨fuel₂ - 1, ?_⟩
        simp only [List.length_cons] at h2
        omega
      simp only [List.length_cons] at h1 h2
      simp only [fenceReplaceGo]
      cases hm : fenceMatchLen word (c :: rest) with
      | some n =>
        apply ih
        · rw [List.length_drop]; omega
        · rw [List.length_drop]; omega
      | none =>
        rw [ih f₂ rest (by omega) (by omega)]

theorem fenceReplace_cons_none {word : List Char} {c : Char} {rest : List Char}
    (h : fenceMatchLen word (c :: rest) = none) :
    fenceReplace word (c :: rest) = c :: fenceReplace word rest := by
  unfold fenceReplace
  simp only [List.length_cons, fenceReplaceGo, h]

theorem fenceReplace_cons_some {word : List Char} {c : Char} {rest : List Char} {n : Nat}
    (h : fenceMatchLen word (c :: rest) = some n) :
    fenceReplace word (c :: rest) = fenceReplace word (rest.drop (n - 1)) := by
  unfold fenceReplace
  simp only [List.length_cons, fenceReplaceGo, h]
  exact fenceReplaceGo_fuel word rest.length (rest.drop (n - 1)).length (rest.drop (n - 1))
    (by rw [List.length_drop]; omega) le_rfl

theorem jsIndexOf_some_prefix {p : List Char} :
    ∀ {s : List Char} {i : Nat}, jsIndexOf p s = some i →
      p.isPrefixOf (s.drop i) = true := by
  intro s
  induction s with
  | nil =>
    intro i h
    unfold jsIndexOf at h
    by_cases hp : p.isPrefixOf ([] : List Char) = true
    · rw [if_pos hp] at h
      cases h
      simpa using hp
    · rw [if_neg hp] at h
      cases h
  | cons c rest ih =>
    intro i h
    unfold jsIndexOf at h
    by_cases hp : p.isPrefixOf (c :: rest) = true
    · rw [if_pos hp] at h
      cases h
      simpa using hp
    · rw [if_neg hp] at h
      cases hj : jsIndexOf p rest with
      | none => rw [hj] at h; cases h
      | some j =>
        rw [hj] at h
        simp only [Option.map_some'] at h
        injection h with h
        subst h
        exact ih hj

theorem jsIndexOf_isSome_of_prefix_drop {p : List Char} :
    ∀ (s : List Char) (k : Nat), p.isPrefixOf (s.drop k) = true →
      (jsIndexOf p s).isSome := by
  intro s
  induction s with
  | nil =>
    intro k h
    rw [List.drop_nil] at h
    unfold jsIndexOf
    rw [if_pos h]
    rfl
  | cons c rest ih =>
    intro k h
    cases k with
    | zero =>
      rw [List.drop_zero] at h
      unfold jsIndexOf
      rw [if_pos h]
      rfl
    | succ k' =>
      have h' : p.isPrefixOf (rest.drop k') = true := h
      have hrec := ih k' h'
      unfold jsIndexOf
      by_cases hp : p.isPrefixOf (c :: rest) = true
      · rw [if_pos hp]; rfl
      · rw [if_neg hp]
        simpa using hrec

theorem fenceMatchLen_none_of_no_fence {word s : List Char}
    (h : jsIndexOf backticks s = none) : fenceMatchLen word s = none := by
  have hb : ∀ k, backticks.isPrefixOf (s.drop k) = false := by
    intro k
    by_contra hk
    rw [Bool.not_eq_false] at hk
    have hsome := jsIndexOf_isSome_of_prefix_drop s k hk
    rw [h] at hsome
    cases hsome
  have hA : (backticks ++ word).isPrefixOf s = false := by
    by_contra hA
    rw [Bool.not_eq_false] at hA
    have h1 : backticks <+: s :=
      (List.prefix_append backticks word).trans (List.isPrefixOf_iff_prefix.mp hA)
    have h2 : backticks.isPrefixOf (s.drop 0) = true := by
      rw [List.drop_zero]
      exact List.isPrefixOf_iff_prefix.mpr h1
    rw [hb 0] at h2
    cases h2
  unfold fenceMatchLen
  simp [hA, hb]

theorem fenceReplace_eq_self_of_no_fence {word : List Char} :
    ∀ {s : List Char}, jsIndexOf backticks s = none → fenceReplace word s = s := by
  intro s
  induction s with
  | nil => intro _; rfl
  | cons c rest ih =>
    intro h
    have hrest : jsIndexOf backticks rest = none := by
      unfold jsIndexOf at h
      by_cases hp : backticks.isPrefixOf (c :: rest) = true
      · rw [if_pos hp] at h; cases h
      · rw [if_neg hp] at h
        cases hj : jsIndexOf backticks rest with
        | none => rfl
        | some j => rw [hj] at h; cases h
    rw [fenceReplace_cons_none (fenceMatchLen_none_of_no_fence h), ih hrest]

theorem singleton_isPrefixOf_head {x : Char} {l : List Char}
    (h : [x].isPrefixOf l = true) : l.head? = some x := by
  cases l with
  | nil => simp [List.isPrefixOf] at h
  | cons c rest =>
    simp only [List.isPrefixOf, Bool.and_eq_true, beq_iff_eq] at h
    simp [h.1.symm]

theorem jsIndexOf_singleton_head {x : Char} {r : List Char} (h : r.head? = some x) :
    jsIndexOf [x] r = some 0 := by
  cases r with
  | nil => cases h
  | cons c rest =>
    have hc : c = x := by simpa using h
    subst hc
    unfold jsIndexOf
    rw [if_pos (by simp [List.isPrefixOf])]

theorem jsLastIndexOfChar_of_getLast {x : Char} {r : List Char}
    (h : r.getLast? = some x) : jsLastIndexOfChar x r = some (r.length - 1) := by
  unfold jsLastIndexOfChar
  have hh : r.reverse.head? = some x := by rw [List.head?_reverse]; exact h
  rw [jsIndexOf_singleton_head hh]
  simp

theorem braceSlice_idem (u : List Char) : braceSlice (braceSlice u) = braceSlice u := by
  cases hsi : jsIndexOf [openBrace] u with
  | none =>
    have hc : braceSlice u = u := by simp [braceSlice, hsi]
    rw [hc, hc]
  | some si =>
    cases hei : jsLastIndexOfChar closeBrace u with
    | none =>
      have hc : braceSlice u = u := by simp [braceSlice, hsi, hei]
      rw [hc, hc]
    | some ei =>
      by_cases hlt : si < ei
      · have hr : braceSlice u = (u.drop si).take (ei + 1 - si) := by
          simp [braceSlice, hsi, hei, hlt]
        have hob : u[si]? = some openBrace := by
          have hpre := jsIndexOf_some_prefix hsi
          have hhd := singleton_isPrefixOf_head hpre
          rwa [List.head?_drop] at hhd
        obtain ⟨i, hi, heiv⟩ :
            ∃ i, jsIndexOf [closeBrace] u.reverse = some i ∧ ei = u.length - 1 - i := by
          unfold jsLastIndexOfChar at hei
          cases hj : jsIndexOf [closeBrace] u.reverse with
          | none => rw [hj] at hei; cases hei
          | some i =>
            rw [hj] at hei
            simp only [Option.map_some'] at hei
            injection hei with hei
            exact ⟨i, rfl, hei.symm⟩
        have hrevi : u.reverse[i]? = some closeBrace := by
          have hpre := jsIndexOf_some_prefix hi
          have hhd := singleton_isPrefixOf_head hpre
          rwa [List.head?_drop] at hhd
        have hilt : i < u.length := by
          obtain ⟨hlt2, _⟩ := List.getElem?_eq_some.mp hrevi
          simpa using hlt2
        rw [List.getElem?_reverse hilt] at hrevi
        have hcb : u[ei]? = some closeBrace := by rw [heiv]; exact hrevi
        have heilt : ei < u.length := by omega
        set r := (u.drop si).take (ei + 1 - si) with hrdef
        have hrlen : r.length = ei + 1 - si := by
          rw [hrdef, List.length_take, List.length_drop]
          omega
        have hrhead : r.head? = some openBrace := by
          rw [hrdef, List.head?_take, if_neg (by omega), List.head?_drop]
          exact hob
        have hrlast : r.getLast? = some closeBrace := by
          rw [List.getLast?_eq_getElem?, hrlen, hrdef]
          rw [List.getElem?_take, if_pos (by omega), List.getElem?_drop]
          rw [show si + (ei + 1 - si - 1) = ei by omega]
          exact hcb
        have hsi' : jsIndexOf [openBrace] r = some 0 := jsIndexOf_singleton_head hrhead
        have hei' : jsLastIndexOfChar closeBrace r = some (r.length - 1) :=
          jsLastIndexOfChar_of_getLast hrlast
        have hbr : braceSlice r = r := by
          simp only [braceSlice, hsi', hei']
          rw [if_pos (by omega)]
          rw [List.drop_zero]
          rw [show r.length - 1 + 1 - 0 = r.length by omega]
          exact List.take_length r
        rw [hr, hbr]
      · have hc : braceSlice u = u := by simp [braceSlice, hsi, hei, hlt]
        rw [hc, hc]

/-- Counterexample for claim C3: the input is a single well-formed outer
JSON object (accepted by the restricted recognizer), yet applying
`cleanJSONResponse` twice differs from applying it once: fence-stripping
the string value's backticks fuses the surviving backticks into a new
three-backtick run, which only the second application removes. -/
theorem claim3_counterexample :
    jsonObjectLike ("\x7b\"a\":\"` `````\"\x7d".toList) = true ∧
    cleanJSONResponse ("\x7b\"a\":\"` `````\"\x7d".toList)
      = "\x7b\"a\":\"```\"\x7d".toList ∧
    ((cleanJSONResponse (cleanJSONResponse ("\x7b\"a\":\"` `````\"\x7d".toList))
        == cleanJSONResponse ("\x7b\"a\":\"` `````\"\x7d".toList)) = false) := by
  decide

/-- Claim C3 as amended: `cleanJSONResponse` is idempotent on every input
for which the result of a single application contains no residual fence
marker (no three-backtick run); the counterexample shows full idempotence
fails when a fence marker survives the first pass. -/
theorem claim3_amended (s : List Char)
    (h : jsIndexOf backticks (cleanJSONResponse s) = none) :
    cleanJSONResponse (cleanJSONResponse s) = cleanJSONResponse s := by
  have h1 : fenceReplace jsonWord (cleanJSONResponse s) = cleanJSONResponse s :=
    fenceReplace_eq_self_of_no_fence h
  show braceSlice (fenceReplace jsonWord (cleanJSONResponse s)) = cleanJSONResponse s
  rw [h1]
  show braceSlice (braceSlice (fenceReplace jsonWord s))
      = braceSlice (fenceReplace jsonWord s)
  exact braceSlice_idem _

/-- Witness for C3 at an input wrapping one JSON object in prose. -/
theorem claim3_witness :
    jsIndexOf backticks (cleanJSONResponse ("noise \x7b\"a\":1\x7d tail".toList)) = none ∧
    cleanJSONResponse (cleanJSONResponse ("noise \x7b\"a\":1\x7d tail".toList))
      = cleanJSONResponse ("noise \x7b\"a\":1\x7d tail".toList) :=
  ⟨by decide, claim3_amended ("noise \x7b\"a\":1\x7d tail".toList) (by decide)⟩

/-! ### Claim C1 -/

theorem jsToLower_eq (s : List Char) : jsToLower s = s.map Char.toLower := rfl

theorem toLower_fixed_of_ws {ch : Char} (h : isJsWs ch = true) :
    ch.toLower = ch := by
  have hmem : ch ∈ wsChars := by
    unfold isJsWs at h
    simpa using h
  fin_cases hmem <;> decide

theorem ws_false_of_toLower_mem {ch : Char} (h : ch.toLower ∈ fromTok) :
    isJsWs ch = false := by
  cases hws : isJsWs ch
  · rfl
  · exfalso
    rw [toLower_fixed_of_ws hws] at h
    fin_cases h <;> exact absurd hws (by decide)

theorem ne_backtick_of_toLower_mem {ch : Char} (h : ch.toLower ∈ fromTok) :
    ch ≠ '`' := by
  rintro rfl
  revert h
  decide

theorem ne_dquote_of_toLower_mem {ch : Char} (h : ch.toLower ∈ fromTok) :
    ch ≠ dquote := by
  rintro rfl
  revert h
  decide

theorem ne_squote_of_toLower_mem {ch : Char} (h : ch.toLower ∈ fromTok) :
    ch ≠ squote := by
  rintro rfl
  revert h
  decide

theorem jsIndexOf_isSome_of_contained {p s : List Char} (h : p <:+: s) :
    (jsIndexOf p s).isSome := by
  obtain ⟨t₁, t₂, ht⟩ := h
  apply jsIndexOf_isSome_of_prefix_drop s t₁.length
  rw [← ht, List.append_assoc, List.drop_left]
  exact List.isPrefixOf_iff_prefix.mpr (List.prefix_append p t₂)

theorem jsTrim_contained (s : List Char) : jsTrim s <:+: s := by
  unfold jsTrim
  have h1 : s.dropWhile isJsWs <:+ s := List.dropWhile_suffix _
  have h2 : (s.dropWhile isJsWs).reverse.dropWhile isJsWs
      <:+ (s.dropWhile isJsWs).reverse := List.dropWhile_suffix _
  have h3 : ((s.dropWhile isJsWs).reverse.dropWhile isJsWs).reverse
      <+: s.dropWhile isJsWs := by
    have := List.reverse_prefix.mpr h2
    rwa [List.reverse_reverse] at this
  exact h3.isInfix.trans h1.isInfix

theorem dropWhile_append_of_head_false {p : Char → Bool} {mh : Char}
    (hmh : p mh = false) (a mt : List Char) :
    ∃ a₂, (a ++ (mh :: mt)).dropWhile p = a₂ ++ (mh :: mt) := by
  rw [List.dropWhile_append]
  by_cases he : (a.dropWhile p).isEmpty
  · rw [if_pos he]
    exact ⟨[], by simp [List.dropWhile_cons, hmh]⟩
  · rw [if_neg he]
    exact ⟨a.dropWhile p, rfl⟩

theorem jsTrim_decomp {m : List Char} (a b : List Char)
    (hm : m ≠ []) (hall : ∀ ch ∈ m, isJsWs ch = false) :
    ∃ a₂ b₂, jsTrim (a ++ m ++ b) = a₂ ++ m ++ b₂ := by
  obtain ⟨mh, mt, rfl⟩ := List.exists_cons_of_ne_nil hm
  have hph : isJsWs mh = false := hall mh (by simp)
  obtain ⟨a₂, ha₂⟩ := dropWhile_append_of_head_false hph a (mt ++ b)
  have e1 : a ++ (mh :: mt) ++ b = a ++ (mh :: (mt ++ b)) := by simp
  unfold jsTrim
  rw [e1, ha₂]
  obtain ⟨ml, mrt, hmrev⟩ : ∃ ml mrt, (mh :: mt).reverse = ml :: mrt := by
    cases hrev : (mh :: mt).reverse with
    | nil =>
      exfalso
      have := congrArg List.length hrev
      simp at this
    | cons x xs => exact ⟨x, xs, rfl⟩
  have hml_mem : ml ∈ mh :: mt := by
    rw [← List.mem_reverse, hmrev]
    simp
  have hpml : isJsWs ml = false := hall ml hml_mem
  obtain ⟨b₂, hb₂⟩ := dropWhile_append_of_head_false hpml b.reverse (mrt ++ a₂.reverse)
  have e2 : (a₂ ++ (mh :: (mt ++ b))).reverse
      = b.reverse ++ (ml :: (mrt ++ a₂.reverse)) := by
    rw [show a₂ ++ (mh :: (mt ++ b)) = (a₂ ++ (mh :: mt)) ++ b by simp]
    rw [List.reverse_append, List.reverse_append, hmrev]
    simp
  rw [e2, hb₂]
  refine ⟨a₂, b₂.reverse, ?_⟩
  rw [List.reverse_append]
  have e3 : (ml :: (mrt ++ a₂.reverse)).reverse = a₂ ++ (mh :: mt) := by
    have hrr : (ml :: mrt).reverse = mh :: mt := by
      rw [← hmrev, List.reverse_reverse]
    calc (ml :: (mrt ++ a₂.reverse)).reverse
        = (mrt ++ a₂.reverse).reverse ++ [ml] := by simp
      _ = a₂ ++ (mrt.reverse ++ [ml]) := by simp
      _ = a₂ ++ (ml :: mrt).reverse := by simp [List.reverse_cons]
      _ = a₂ ++ (mh :: mt) := by rw [hrr]
  rw [e3]

theorem contained_jsToLower_trim {s : List Char}
    (h : fromTok <:+: jsToLower s) : fromTok <:+: jsToLower (jsTrim s) := by
  obtain ⟨t₁, t₂, ht⟩ := h
  have ht' : List.map Char.toLower s = t₁ ++ (fromTok ++ t₂) := by
    rw [← List.append_assoc]
    exact ht.symm
  obtain ⟨a, u, rfl, hma, hmu⟩ := List.map_eq_append_iff.mp ht'
  obtain ⟨m, b, rfl, hmm2, hmb⟩ := List.map_eq_append_iff.mp hmu
  have hm4 : ∀ ch ∈ m, ch.toLower ∈ fromTok := by
    intro ch hch
    rw [← hmm2]
    exact List.mem_map_of_mem _ hch
  have hmne : m ≠ [] := by
    intro h0
    rw [h0] at hmm2
    simp [fromTok] at hmm2
  have hallws : ∀ ch ∈ m, isJsWs ch = false := fun ch hch =>
    ws_false_of_toLower_mem (hm4 ch hch)
  have e0 : a ++ (m ++ b) = a ++ m ++ b := by simp
  rw [e0]
  obtain ⟨a₂, b₂, htr⟩ := jsTrim_decomp a b hmne hallws
  rw [htr]
  exact ⟨List.map Char.toLower a₂, List.map Char.toLower b₂, by
    simp [jsToLower_eq, hmm2]⟩

theorem fenceMatchLen_none_head {c : Char} {rest : List Char}
    (hws : isJsWs c = false) (hbt : c ≠ '`') (word : List Char) :
    fenceMatchLen word (c :: rest) = none := by
  have h1 : (backticks ++ word).isPrefixOf (c :: rest) = false := by
    rw [Bool.eq_false_iff]
    intro hp
    obtain ⟨t, ht⟩ := List.isPrefixOf_iff_prefix.mp hp
    have hc : '`' = c := by
      have h4 := congrArg List.head? ht
      simpa [backticks] using h4
    exact hbt hc.symm
  have h2 : (c :: rest).takeWhile isJsWs = [] := by
    simp [List.takeWhile_cons, hws]
  have h3 : backticks.isPrefixOf (c :: rest) = false := by
    rw [Bool.eq_false_iff]
    intro hp
    obtain ⟨t, ht⟩ := List.isPrefixOf_iff_prefix.mp hp
    have hc : '`' = c := by
      have h4 := congrArg List.head? ht
      simpa [backticks] using h4
    exact hbt hc.symm
  unfold fenceMatchLen
  simp [h1, h2, h3]

theorem fenceReplace_preserve (word : List Char) :
    ∀ (k : Nat) (s : List Char),
      (∀ ch ∈ s.take k, isJsWs ch = false ∧ ch ≠ '`') →
      fenceReplace word s = s.take k ++ fenceReplace word (s.drop k) := by
  intro k
  induction k with
  | zero => intro s _; simp
  | succ k' ih =>
    intro s hc
    cases s with
    | nil => simp
    | cons c rest =>
      have hch : isJsWs c = false ∧ c ≠ '`' := hc c (by simp [List.take_succ_cons])
      have hnone : fenceMatchLen word (c :: rest) = none :=
        fenceMatchLen_none_head hch.1 hch.2 word
      rw [fenceReplace_cons_none hnone,
        ih rest (fun ch hm => hc ch (by simp [List.take_succ_cons, hm])),
        List.take_succ_cons, List.drop_succ_cons, List.cons_append]

theorem quoteStrip_eq_self_of_head {r : List Char} {ch : Char}
    (hh : r.head? = some ch) (h1 : ch ≠ dquote) (h2 : ch ≠ squote) :
    quoteStrip r = r := by
  unfold quoteStrip
  rw [if_neg]
  rintro (⟨ha, _⟩ | ⟨ha, _⟩)
  · rw [hh] at ha
    exact h1 (Option.some.inj ha)
  · rw [hh] at ha
    exact h2 (Option.some.inj ha)

theorem clean_core {c2 : List Char} (h4 : fromTok <+: jsToLower c2) :
    fromTok <+: jsToLower (quoteStrip (fenceReplace dockerfileWord c2)) := by
  have hlen : 4 ≤ c2.length := by
    have := h4.length_le
    simpa [jsToLower_eq, fromTok] using this
  have htake : (List.map Char.toLower c2).take 4 = fromTok := by
    have := List.prefix_iff_eq_take.mp h4
    rw [jsToLower_eq] at this
    simpa [fromTok] using this.symm
  have hchars : ∀ ch ∈ c2.take 4, ch.toLower ∈ fromTok := by
    intro ch hch
    have hmm : ch.toLower ∈ (List.map Char.toLower c2).take 4 := by
      rw [← List.map_take]
      exact List.mem_map_of_mem _ hch
    rwa [htake] at hmm
  have hstep : fenceReplace dockerfileWord c2
      = c2.take 4 ++ fenceReplace dockerfileWord (c2.drop 4) :=
    fenceReplace_preserve dockerfileWord 4 c2 (fun ch hch =>
      ⟨ws_false_of_toLower_mem (hchars ch hch),
       ne_backtick_of_toLower_mem (hchars ch hch)⟩)
  obtain ⟨ch0, c2t, rfl⟩ : ∃ ch0 c2t, c2 = ch0 :: c2t := by
    cases c2 with
    | nil => simp at hlen
    | cons x xs => exact ⟨x, xs, rfl⟩
  have hch0 : ch0.toLower ∈ fromTok := hchars ch0 (by simp [List.take_succ_cons])
  have hhead : (fenceReplace dockerfileWord (ch0 :: c2t)).head? = some ch0 := by
    rw [hstep, List.take_succ_cons]
    rfl
  have hq : quoteStrip (fenceReplace dockerfileWord (ch0 :: c2t))
      = fenceReplace dockerfileWord (ch0 :: c2t) :=
    quoteStrip_eq_self_of_head hhead (ne_dquote_of_toLower_mem hch0)
      (ne_squote_of_toLower_mem hch0)
  rw [hq, hstep]
  refine ⟨jsToLower (fenceReplace dockerfileWord ((ch0 :: c2t).drop 4)), ?_⟩
  rw [jsToLower_eq, jsToLower_eq, List.map_append, List.map_take, htake]

/-- Counterexample for claim C1: for the token-free input made of a fence
marker, a space and a letter, the code trims before stripping fences, so
the whitespace uncovered by fence removal survives; the claim's order
(fences stripped, then trimmed) yields a different, fully trimmed string. -/
theorem claim1_counterexample :
    containsFromTok ("``` a".toList) = false ∧
    cleanDockerfileContent ("``` a".toList) = " a".toList ∧
    cleanDockerfileSpecOrder ("``` a".toList) = "a".toList ∧
    ((cleanDockerfileContent ("``` a".toList)
        == cleanDockerfileSpecOrder ("``` a".toList)) = false) := by
  decide

/-- Claim C1 as amended: when the input contains the token `from` in any
letter case, `cleanDockerfileContent` returns a string beginning with that
token (case-insensitively); when it does not, the result is the input
trimmed first, then fence-stripped, then quote-stripped (the code applies
`trim` before the fence regex, so whitespace uncovered by fence removal is
not re-trimmed). -/
theorem claim1_amended (content : List Char) :
    (containsFromTok content = true →
      fromTok <+: jsToLower (cleanDockerfileContent content)) ∧
    (containsFromTok content = false →
      cleanDockerfileContent content
        = quoteStrip (fenceReplace dockerfileWord (jsTrim content))) := by
  constructor
  · intro h
    have hinf : fromTok <:+: jsToLower content := by
      unfold containsFromTok at h
      cases hidx : jsIndexOf fromTok (jsToLower content) with
      | none => rw [hidx] at h; cases h
      | some i =>
        have hpre := jsIndexOf_some_prefix hidx
        exact (List.isPrefixOf_iff_prefix.mp hpre).isInfix.trans
          (List.drop_suffix i _).isInfix
    have hinf2 : fromTok <:+: jsToLower (jsTrim content) := contained_jsToLower_trim hinf
    have hsome : (jsIndexOf fromTok (jsToLower (jsTrim content))).isSome =
        true := jsIndexOf_isSome_of_contained hinf2
    simp only [cleanDockerfileContent]
    cases hidx : jsIndexOf fromTok (jsToLower (jsTrim content)) with
    | none =>
      rw [hidx] at hsome
      cases hsome
    | some i =>
      have hpre := jsIndexOf_some_prefix hidx
      have hdrop : fromTok <+: jsToLower ((jsTrim content).drop i) := by
        rw [jsToLower_eq, List.map_drop]
        exact List.isPrefixOf_iff_prefix.mp hpre
      show fromTok <+: jsToLower (quoteStrip (fenceReplace dockerfileWord
        (if 0 < i then (jsTrim content).drop i else jsTrim content)))
      by_cases hi : 0 < i
      · rw [if_pos hi]
        exact clean_core hdrop
      · rw [if_neg hi]
        have hi0 : i = 0 := by omega
        subst hi0
        rw [List.drop_zero] at hdrop
        exact clean_core hdrop
  · intro h
    have hnone : jsIndexOf fromTok (jsToLower (jsTrim content)) = none := by
      cases hidx : jsIndexOf fromTok (jsToLower (jsTrim content)) with
      | none => rfl
      | some i =>
        exfalso
        have hpre := jsIndexOf_some_prefix hidx
        have hinf : fromTok <:+: jsToLower (jsTrim content) :=
          (List.isPrefixOf_iff_prefix.mp hpre).isInfix.trans
            (List.drop_suffix i _).isInfix
        have hinf2 : fromTok <:+: jsToLower content := by
          rw [jsToLower_eq] at hinf ⊢
          exact hinf.trans (List.IsInfix.map Char.toLower (jsTrim_contained content))
        have hsome := jsIndexOf_isSome_of_contained hinf2
        unfold containsFromTok at h
        rw [h] at hsome
        cases hsome
    simp only [cleanDockerfileContent]
    rw [hnone]

/-- Witness for C1: a token-carrying input whose output starts with the
token, and a token-free fenced input equal to the trim-fence-quote
composition. -/
theorem claim1_witness :
    containsFromTok ("say: FROM node:18".toList) = true ∧
    fromTok <+: jsToLower (cleanDockerfileContent ("say: FROM node:18".toList)) ∧
    containsFromTok ("```dockerfile\nRUN ls\n```".toList) = false ∧
    cleanDockerfileContent ("```dockerfile\nRUN ls\n```".toList)
      = quoteStrip (fenceReplace dockerfileWord
          (jsTrim ("```dockerfile\nRUN ls\n```".toList))) :=
  ⟨by decide, (claim1_amended ("say: FROM node:18".toList)).1 (by decide),
   by decide, (claim1_amended ("```dockerfile\nRUN ls\n```".toList)).2 (by decide)⟩

/-! ### Claim C8 -/

theorem connector_length (b : Bool) : (connector b).length = 4 := by
  cases b <;> rfl

theorem childExt_length (b : Bool) : (childExt b).length = 4 := by
  cases b <;> rfl

theorem travAll_nil (pfx : List Char) (d : Nat) : travAll [] pfx d = [] := by
  rw [travAll.eq_def]

theorem travAll_cons_file (nm : List Char) (rest : List Fs) (pfx : List Char) (d : Nat) :
    travAll (.file nm :: rest) pfx d =
      (if ignoreDirs.contains nm then []
       else [pfx ++ connector rest.isEmpty ++ nm]) ++
      travAll rest pfx d := by
  rw [travAll.eq_def]

theorem travAll_cons_dir (nm : List Char) (children rest : List Fs)
    (pfx : List Char) (d : Nat) :
    travAll (.dir nm children :: rest) pfx d =
      (if ignoreDirs.contains nm then []
       else (pfx ++ connector rest.isEmpty ++ nm) ::
         (if 5 < d + 1 then []
          else travAll children (pfx ++ childExt rest.isEmpty) (d + 1))) ++
      travAll rest pfx d := by
  rw [travAll.eq_def]

theorem gutList_nil : gutList [] = [] := by
  rw [gutList]

theorem gutList_cons (e : Fs) (rest : List Fs) :
    gutList (e :: rest) = gutIgnored e :: gutList rest := by
  rw [gutList]

theorem gutIgnored_file (n : List Char) : gutIgnored (.file n) = .file n := by
  rw [gutIgnored]

theorem gutIgnored_dir (n : List Char) (children : List Fs) :
    gutIgnored (.dir n children)
      = .dir n (if ignoreDirs.contains n then [] else gutList children) := by
  rw [gutIgnored]

theorem gutList_isEmpty (fs : List Fs) : (gutList fs).isEmpty = fs.isEmpty := by
  cases fs with
  | nil => rw [gutList_nil]
  | cons e rest => rw [gutList_cons]; rfl

theorem travAll_lines_aux :
    ∀ (n : Nat) (fs : List Fs), sizeOf fs ≤ n → ∀ (pfx : List Char) (d : Nat), d ≤ 5 →
      ∀ line ∈ travAll fs pfx d,
        ∃ j name pfx2, line = pfx2 ++ name ∧
          pfx2.length = pfx.length + 4 * (j + 1) ∧ d + j ≤ 5 ∧
          ignoreDirs.contains name = false := by
  intro n
  induction n with
  | zero =>
    intro fs hsz
    cases fs with
    | nil =>
      intro pfx d _ line hline
      rw [travAll_nil] at hline
      cases hline
    | cons e rest =>
      exfalso
      rw [List.cons.sizeOf_spec] at hsz
      omega
  | succ n ih =>
    intro fs hsz pfx d hd line hline
    cases fs with
    | nil =>
      rw [travAll_nil] at hline
      cases hline
    | cons e rest =>
      rw [List.cons.sizeOf_spec] at hsz
      cases e with
      | file nm =>
        rw [travAll_cons_file] at hline
        rcases List.mem_append.mp hline with hL | hR
        · by_cases hig : ignoreDirs.contains nm
          · rw [if_pos hig] at hL
            cases hL
          · rw [if_neg hig] at hL
            have hLeq := List.mem_singleton.mp hL
            refine ⟨0, nm, pfx ++ connector rest.isEmpty, ?_, ?_, by omega,
              Bool.eq_false_iff.mpr hig⟩
            · rw [hLeq]
            · rw [List.length_append, connector_length]
        · exact ih rest (by omega) pfx d hd line hR
      | dir nm children =>
        rw [travAll_cons_dir] at hline
        rcases List.mem_append.mp hline with hL | hR
        · by_cases hig : ignoreDirs.contains nm
          · rw [if_pos hig] at hL
            cases hL
          · rw [if_neg hig] at hL
            rcases List.mem_cons.mp hL with hL1 | hL2
            · refine ⟨0, nm, pfx ++ connector rest.isEmpty, ?_, ?_, by omega,
                Bool.eq_false_iff.mpr hig⟩
              · rw [hL1]
              · rw [List.length_append, connector_length]
            · by_cases hd5 : 5 < d + 1
              · rw [if_pos hd5] at hL2
                cases hL2
              · rw [if_neg hd5] at hL2
                have hszc : sizeOf children ≤ n := by
                  rw [Fs.dir.sizeOf_spec] at hsz
                  omega
                obtain ⟨j, name, pname, h1, h2, h3, h4⟩ :=
                  ih children hszc (pfx ++ childExt rest.isEmpty) (d + 1)
                    (by omega) line hL2
                refine ⟨j + 1, name, pname, h1, ?_, by omega, h4⟩
                rw [h2, List.length_append, childExt_length]
                ring
        · exact ih rest (by omega) pfx d hd line hR

theorem travAll_gut_aux :
    ∀ (n : Nat) (fs : List Fs), sizeOf fs ≤ n → ∀ (pfx : List Char) (d : Nat),
      travAll (gutList fs) pfx d = travAll fs pfx d := by
  intro n
  induction n with
  | zero =>
    intro fs hsz
    cases fs with
    | nil => intro pfx d; rw [gutList_nil]
    | cons e rest =>
      exfalso
      rw [List.cons.sizeOf_spec] at hsz
      omega
  | succ n ih =>
    intro fs hsz pfx d
    cases fs with
    | nil => rw [gutList_nil]
    | cons e rest =>
      rw [List.cons.sizeOf_spec] at hsz
      rw [gutList_cons]
      cases e with
      | file nm =>
        rw [gutIgnored_file, travAll_cons_file, travAll_cons_file, gutList_isEmpty,
          ih rest (by omega) pfx d]
      | dir nm children =>
        rw [gutIgnored_dir]
        by_cases hig : ignoreDirs.contains nm
        · rw [travAll_cons_dir, travAll_cons_dir]
          simp only [if_pos hig]
          rw [ih rest (by omega) pfx d]
        · rw [travAll_cons_dir, travAll_cons_dir]
          simp only [if_neg hig]
          rw [gutList_isEmpty, ih rest (by omega) pfx d]
          by_cases hd5 : 5 < d + 1
          · simp only [if_pos hd5]
          · simp only [if_neg hd5]
            rw [ih children (by rw [Fs.dir.sizeOf_spec] at hsz; omega)
              (pfx ++ childExt rest.isEmpty) (d + 1)]

/-- Claim C8: every line of the directory-structure output names an entry
at depth at most 6 below the root (the box-drawing indent of a depth-`k`
entry is exactly `4 * k` characters, and `1 ≤ k ≤ 6`), the named entry is
never one of `.git`, `node_modules`, `venv`, `.venv`, and the contents of
any directory carrying one of those names never influence the output
(replacing all such directories' children with the empty listing leaves the
output unchanged, so no path beneath them ever appears). -/
theorem claim8_structure_invariants (fs : List Fs) :
    (generateDirectoryStructure fs).Forall (fun line =>
      ∃ depth name pfx2, 1 ≤ depth ∧ depth ≤ 6 ∧
        line = pfx2 ++ name ∧ pfx2.length = 4 * depth ∧
        ignoreDirs.contains name = false) ∧
    generateDirectoryStructure (gutList fs) = generateDirectoryStructure fs := by
  constructor
  · rw [List.forall_iff_forall_mem]
    intro line hline
    obtain ⟨j, name, pfx2, h1, h2, h3, h4⟩ :=
      travAll_lines_aux (sizeOf fs) fs le_rfl [] 0 (by omega) line hline
    exact ⟨j + 1, name, pfx2, by omega, by omega, h1, by simpa using h2, h4⟩
  · exact travAll_gut_aux (sizeOf fs) fs le_rfl [] 0

end DockerGen
